import Mathlib

/-!
Relative jump encoding of the assembler (`jump.go`).

A shallow embedding of `Assembler.jump` and of the seven public jump
operations, followed by the properties of the encoding.

Machine integers are natural numbers (`uint32`, `uint8`, `byte`) or integers
(`int32`) with every wraparound written out as a remainder.
-/

namespace Asm

/-! ## Machine arithmetic -/

/-- Addition of two `uint32` values, as Go computes it. -/
def addUint32 (x y : Nat) : Nat := (x + y) % 4294967296

/-- Subtraction of two `uint32` values, as Go computes it (wraps below zero). -/
def subUint32 (x y : Nat) : Nat :=
  (x % 4294967296 + 4294967296 - y % 4294967296) % 4294967296

/-- Conversion `int32(x)` of a `uint32` value: the same 32 bits read in two's complement. -/
def int32 (x : Nat) : Int :=
  if x % 4294967296 < 2147483648 then ((x % 4294967296 : Nat) : Int)
  else ((x % 4294967296 : Nat) : Int) - 4294967296

/-- Conversion `byte(v)` of an `int32` value: its low eight bits. -/
def byte (v : Int) : Nat := (v % 256).toNat

/-- The four bytes `binary.Write` produces for an `int32` under `binary.LittleEndian`:
the two's complement bit pattern, least significant byte first. -/
def littleEndianInt32 (v : Int) : List Nat :=
  let u := (v % 4294967296).toNat
  [u % 256, u / 256 % 256, u / 65536 % 256, u / 16777216 % 256]

/-! ## Session state -/

/-- Modelled from the spec: the declaration of `jumpPointer` is not in `jump.go`. It is
the Patch Site of the data model, a pair of an operand position (`uint32`) and an operand
width (`uint8`), built positionally as `jumpPointer{pointerPosition, pointerSize}`. -/
structure jumpPointer where
  Position : Nat
  Size : Nat
  deriving DecidableEq, Repr

/-- Modelled from the spec: the declaration of `Assembler` is not in `jump.go`. The session
holds the Code Buffer (`code`, the bytes written so far), the Label Table (`Labels`, a Go map
from label name to `uint32` address) and the Pending-Patch Registry (`undefinedJumpLabels`,
a Go map from label name to a slice of patch sites). A Go map is a partial function:
`none` is an absent key. A byte is a natural number; a value of Go type `byte` is below 256. -/
structure Assembler where
  code : List Nat
  Labels : String → Option Nat
  undefinedJumpLabels : String → Option (List jumpPointer)

namespace Assembler

/-- Modelled from the spec: `Len` is not in `jump.go`. The Code Buffer interface is
`length() -> Address`, an unsigned 32-bit byte offset: the number of bytes written,
as a `uint32`. -/
def Len (a : Assembler) : Nat := a.code.length % 4294967296

/-- Modelled from the spec: `WriteBytes` is not in `jump.go`. The Code Buffer interface is
`append(bytes)`: the bytes are added at the end of the buffer. -/
def WriteBytes (a : Assembler) (someBytes : List Nat) : Assembler :=
  { a with code := a.code ++ someBytes }

/-- Modelled from the spec: the `Write` method that makes the assembler an `io.Writer` is
not in `jump.go`; like `WriteBytes` it is the `append(bytes)` of the Code Buffer. The call
`binary.Write(a, binary.LittleEndian, offset)` with `offset` an `int32` hands it the four
bytes of the value, which are added at the end of the buffer. -/
def binaryWriteInt32 (a : Assembler) (offset : Int) : Assembler :=
  { a with code := a.code ++ littleEndianInt32 offset }

/-- Reading `a.undefinedJumpLabels[label]`: an absent key reads as the nil slice. -/
def pendingOf (a : Assembler) (label : String) : List jumpPointer :=
  (a.undefinedJumpLabels label).getD []

/-- The assignment `a.undefinedJumpLabels[label] = pointers`. -/
def setPending (a : Assembler) (label : String) (pointers : List jumpPointer) : Assembler :=
  { a with undefinedJumpLabels := fun l => if l = label then some pointers
                                          else a.undefinedJumpLabels l }

/-- The method `jump` of `jump.go`: program flow jumps. -/
def jump (a : Assembler) (shortCode : Nat) (nearCode : List Nat) (label : String) :
    Assembler :=
  let instructionPosition := a.Len
  let pointerPosition := addUint32 instructionPosition 1
  let pointerSize := 1
  match a.Labels label with
  | none =>
    let pointer : jumpPointer := ⟨pointerPosition, pointerSize⟩
    let a1 := a.setPending label (a.pendingOf label ++ [pointer])
    let a2 := a1.WriteBytes [shortCode]
    a2.WriteBytes [0]
  | some absoluteAddress =>
    let offset := int32 (subUint32 absoluteAddress (addUint32 pointerPosition pointerSize))
    if offset < -128 ∨ offset > 127 then
      let a1 := a.WriteBytes nearCode
      a1.binaryWriteInt32 offset
    else
      let a1 := a.WriteBytes [shortCode]
      a1.WriteBytes [byte offset]

/-- The method `Jump`: continues program flow at the new address. -/
def Jump (a : Assembler) (label : String) : Assembler :=
  a.jump 0xeb [0xe9] label

/-- The method `JumpIfLess`: jumps if the result was less. -/
def JumpIfLess (a : Assembler) (label : String) : Assembler :=
  a.jump 0x7c [0x0f, 0x8c] label

/-- The method `JumpIfLessOrEqual`: jumps if the result was less or equal. -/
def JumpIfLessOrEqual (a : Assembler) (label : String) : Assembler :=
  a.jump 0x7e [0x0f, 0x8e] label

/-- The method `JumpIfGreater`: jumps if the result was greater. -/
def JumpIfGreater (a : Assembler) (label : String) : Assembler :=
  a.jump 0x7f [0x0f, 0x8f] label

/-- The method `JumpIfGreaterOrEqual`: jumps if the result was greater or equal. -/
def JumpIfGreaterOrEqual (a : Assembler) (label : String) : Assembler :=
  a.jump 0x7d [0x0f, 0x8d] label

/-- The method `JumpIfEqual`: jumps if the result was equal. -/
def JumpIfEqual (a : Assembler) (label : String) : Assembler :=
  a.jump 0x74 [0x0f, 0x84] label

/-- The method `JumpIfNotEqual`: jumps if the result was not equal. -/
def JumpIfNotEqual (a : Assembler) (label : String) : Assembler :=
  a.jump 0x75 [0x0f, 0x85] label

end Assembler

/-! ## Reading a displacement back -/

/-- Reads one byte as a signed 8-bit integer (two's complement). -/
def decodeInt8 (b : Nat) : Int :=
  if b % 256 < 128 then ((b % 256 : Nat) : Int) else ((b % 256 : Nat) : Int) - 256

/-- Reads four bytes, least significant first, as a signed 32-bit integer. -/
def decodeInt32LE (bs : List Nat) : Int :=
  match bs with
  | [b0, b1, b2, b3] => int32 (b0 + 256 * b1 + 65536 * b2 + 16777216 * b3)
  | _ => 0

/-- An empty session whose buffer holds `n` zero bytes and whose label table binds the
single label `name` to `address`. -/
def sessionWithLabel (n : Nat) (name : String) (address : Nat) : Assembler :=
  { code := List.replicate n 0
    Labels := fun l => if l = name then some address else none
    undefinedJumpLabels := fun _ => none }

/-- A session whose buffer holds `n` zero bytes, with no label and no pending patch. -/
def sessionOfLength (n : Nat) : Assembler :=
  { code := List.replicate n 0
    Labels := fun _ => none
    undefinedJumpLabels := fun _ => none }

/-- The value `z` computed in 32-bit wraparound arithmetic and read as a signed 32-bit
integer (specification side: plain integer arithmetic, then one reduction). -/
def wrapInt32 (z : Int) : Int :=
  if z % 4294967296 < 2147483648 then z % 4294967296 else z % 4294967296 - 4294967296

/-- The session `a` with `label` bound to `address` in the label table, everything else
unchanged. -/
def withLabel (a : Assembler) (label : String) (address : Nat) : Assembler :=
  { a with Labels := fun l => if l = label then some address else a.Labels l }

/-! ## The patch rule of the spec -/

/-- Modelled from the spec: the Code Buffer operation `overwrite(position, bytes)` is not in
`jump.go`. It replaces the already-written bytes that start at `position`. -/
def overwriteAt (code : List Nat) (position : Nat) (bytes : List Nat) : List Nat :=
  code.take position ++ bytes ++ code.drop (position + bytes.length)

/-- The low `width` bytes of the two's complement form of `v`, least significant first. -/
def littleEndianSigned (width : Nat) (v : Int) : List Nat :=
  (List.range width).map (fun i => ((v / 256 ^ i) % 256).toNat)

/-- Modelled from the spec: the Patch Resolver is not in `jump.go`. For one patch site
`(position, width)` of a label now bound to `targetAddress` it computes
`offset = targetAddress - (position + width)` and overwrites the `width` bytes at `position`
with `offset` as a little-endian signed integer of that width. An offset that does not fit the
width, or a site that is not already written, is an error (`none`). -/
def patchSite (code : List Nat) (targetAddress : Nat) (site : jumpPointer) :
    Option (List Nat) :=
  let offset : Int := (targetAddress : Int) - ((site.Position : Int) + (site.Size : Int))
  if -(2 ^ (8 * site.Size - 1) : Int) ≤ offset ∧ offset < 2 ^ (8 * site.Size - 1) ∧
      site.Position + site.Size ≤ code.length then
    some (overwriteAt code site.Position (littleEndianSigned site.Size offset))
  else none

/-! ## The public operations as a table -/

/-- The public jump operations that `jump.go` defines. -/
inductive Operation where
  | Jump
  | JumpIfLess
  | JumpIfLessOrEqual
  | JumpIfGreater
  | JumpIfGreaterOrEqual
  | JumpIfEqual
  | JumpIfNotEqual
  deriving DecidableEq, Repr

/-- Every public jump operation of `jump.go`, in source order. -/
def Operation.all : List Operation :=
  [.Jump, .JumpIfLess, .JumpIfLessOrEqual, .JumpIfGreater, .JumpIfGreaterOrEqual,
   .JumpIfEqual, .JumpIfNotEqual]

/-- Calling a public operation: dispatch to the method of that name. -/
def Operation.run (op : Operation) (a : Assembler) (label : String) : Assembler :=
  match op with
  | .Jump => a.Jump label
  | .JumpIfLess => a.JumpIfLess label
  | .JumpIfLessOrEqual => a.JumpIfLessOrEqual label
  | .JumpIfGreater => a.JumpIfGreater label
  | .JumpIfGreaterOrEqual => a.JumpIfGreaterOrEqual label
  | .JumpIfEqual => a.JumpIfEqual label
  | .JumpIfNotEqual => a.JumpIfNotEqual label

/-- The mnemonic-to-opcode table as the spec prints it (specification side): the short
opcode and the near opcode bytes of each operation. -/
def specOpcodes (op : Operation) : Nat × List Nat :=
  match op with
  | .Jump => (0xEB, [0xE9])
  | .JumpIfLess => (0x7C, [0x0F, 0x8C])
  | .JumpIfLessOrEqual => (0x7E, [0x0F, 0x8E])
  | .JumpIfGreater => (0x7F, [0x0F, 0x8F])
  | .JumpIfGreaterOrEqual => (0x7D, [0x0F, 0x8D])
  | .JumpIfEqual => (0x74, [0x0F, 0x84])
  | .JumpIfNotEqual => (0x75, [0x0F, 0x85])

/-- An operation encodes the jump of condition code `cc` when it is `jump` with the short
opcode `0x70 + cc` and the near opcode `0x0F, 0x80 + cc`. -/
def EncodesCondition (op : Operation) (cc : Nat) : Prop :=
  ∀ (a : Assembler) (label : String),
    op.run a label = a.jump (0x70 + cc) [0x0F, 0x80 + cc] label

/-- The invariant of the Pending-Patch Registry: a label with a non-empty patch list is not
a key of the label table. -/
def RegistryDisjoint (a : Assembler) : Prop :=
  ∀ l : String, a.pendingOf l ≠ [] → a.Labels l = none

/-- The offset that `jump` computes for a label bound to `absoluteAddress`:
`int32(absoluteAddress - (pointerPosition + uint32(pointerSize)))` with
`pointerPosition = a.Len() + 1` and `pointerSize = 1`. -/
def Assembler.offsetTo (a : Assembler) (absoluteAddress : Nat) : Int :=
  int32 (subUint32 absoluteAddress (addUint32 (addUint32 a.Len 1) 1))

/-- The invariant of the registered patch sites: every site has width 1, a position of at
least 1, and lies within the bytes already written. -/
def SitesWritten (a : Assembler) : Prop :=
  ∀ (l : String) (s : jumpPointer), s ∈ a.pendingOf l →
    s.Size = 1 ∧ 1 ≤ s.Position ∧ s.Position + s.Size ≤ a.code.length

/-- A sequence of calls of public jump operations, each on its own label, run in turn. -/
def runJumps (a : Assembler) (steps : List (Operation × String)) : Assembler :=
  steps.foldl (fun s step => step.1.run s step.2) a

/-- The patch sites that a sequence of two-byte jumps starting at buffer length `n` adds
for the label `l` (specification side): the jump number `i` of the sequence contributes
`(n + 2 * i + 1, 1)` when its label is `l`, in the order of the jumps. -/
def sitesFrom (n : Nat) (steps : List (Operation × String)) (l : String) : List jumpPointer :=
  match steps with
  | [] => []
  | step :: rest =>
    (if step.2 = l then [⟨n + 1, 1⟩] else []) ++ sitesFrom (n + 2) rest l

/-! ## Arithmetic of the offset -/

theorem offset_eq_wrapInt32 (n T : Nat) :
    int32 (subUint32 T (addUint32 (addUint32 (n % 4294967296) 1) 1))
      = wrapInt32 ((T : Int) - ((n : Int) + 2)) := by
  unfold int32 subUint32 addUint32 wrapInt32
  split <;> split <;> omega

theorem wrapInt32_of_small (z : Int) (h1 : -2147483648 ≤ z) (h2 : z < 2147483648) :
    wrapInt32 z = z := by
  unfold wrapInt32
  split <;> omega

theorem wrapInt32_range (z : Int) : -2147483648 ≤ wrapInt32 z ∧ wrapInt32 z < 2147483648 := by
  unfold wrapInt32
  split <;> omega

/-! ## The three paths of `jump` -/

theorem jump_undefined (a : Assembler) (shortCode : Nat) (nearCode : List Nat)
    (label : String) (h : a.Labels label = none) :
    a.jump shortCode nearCode label =
      { code := a.code ++ [shortCode, 0]
        Labels := a.Labels
        undefinedJumpLabels := fun l =>
          if l = label then
            some (a.pendingOf label ++ [⟨(a.code.length + 1) % 4294967296, 1⟩])
          else a.undefinedJumpLabels l } := by
  have e : addUint32 (a.code.length % 4294967296) 1 = (a.code.length + 1) % 4294967296 := by
    unfold addUint32; omega
  simp [Assembler.jump, h, Assembler.WriteBytes, Assembler.setPending, Assembler.Len, e]

theorem jump_defined_short (a : Assembler) (shortCode : Nat) (nearCode : List Nat)
    (label : String) (T : Nat) (h : a.Labels label = some T)
    (h1 : -128 ≤ wrapInt32 ((T : Int) - ((a.code.length : Int) + 2)))
    (h2 : wrapInt32 ((T : Int) - ((a.code.length : Int) + 2)) ≤ 127) :
    a.jump shortCode nearCode label =
      { a with code := a.code ++
          [shortCode, byte (wrapInt32 ((T : Int) - ((a.code.length : Int) + 2)))] } := by
  have e := offset_eq_wrapInt32 a.code.length T
  have hn : ¬ (wrapInt32 ((T : Int) - ((a.code.length : Int) + 2)) < -128 ∨
      wrapInt32 ((T : Int) - ((a.code.length : Int) + 2)) > 127) := by omega
  simp [Assembler.jump, h, Assembler.WriteBytes, Assembler.Len, e, hn]

theorem jump_defined_near (a : Assembler) (shortCode : Nat) (nearCode : List Nat)
    (label : String) (T : Nat) (h : a.Labels label = some T)
    (h1 : wrapInt32 ((T : Int) - ((a.code.length : Int) + 2)) < -128 ∨
      127 < wrapInt32 ((T : Int) - ((a.code.length : Int) + 2))) :
    a.jump shortCode nearCode label =
      { a with code := a.code ++ nearCode ++
          littleEndianInt32 (wrapInt32 ((T : Int) - ((a.code.length : Int) + 2))) } := by
  have e := offset_eq_wrapInt32 a.code.length T
  have hn : (wrapInt32 ((T : Int) - ((a.code.length : Int) + 2)) < -128 ∨
      wrapInt32 ((T : Int) - ((a.code.length : Int) + 2)) > 127) := by omega
  simp [Assembler.jump, h, Assembler.WriteBytes, Assembler.binaryWriteInt32, Assembler.Len, e, hn]

theorem length_sessionOfLength (n : Nat) : (sessionOfLength n).code.length = n :=
  List.length_replicate n 0

theorem pending_at_wrap (a : Assembler) (shortCode : Nat) (nearCode : List Nat)
    (label : String) (h : a.Labels label = none) (hl : a.code.length = 4294967295)
    (hp : a.pendingOf label = []) :
    (a.jump shortCode nearCode label).pendingOf label = [⟨0, 1⟩] := by
  rw [jump_undefined a shortCode nearCode label h, hl, hp]
  simp [Assembler.pendingOf]

theorem littleEndianSigned_one (v : Int) : littleEndianSigned 1 v = [byte v] := by
  simp [littleEndianSigned, byte, List.range_succ]

theorem overwrite_operand (code : List Nat) (s b0 b : Nat) :
    overwriteAt (code ++ [s, b0]) (code.length + 1) [b] = code ++ [s, b] := by
  have e : code ++ [s, b0] = (code ++ [s]) ++ [b0] := by simp
  have hl : (code ++ [s]).length = code.length + 1 := by simp
  unfold overwriteAt
  rw [e, ← hl, List.take_left, List.length_singleton, ← List.length_singleton b0,
    ← List.length_append, List.drop_length]
  simp

theorem overwrite_first_keeps_tail (code : List Nat) (s b0 b : Nat) (h : 0 < code.length) :
    (overwriteAt (code ++ [s, b0]) 0 [b]).drop code.length = [s, b0] := by
  cases code with
  | nil => simp at h
  | cons x xs =>
    have hl : (b :: xs).length = (x :: xs).length := by simp
    have e : overwriteAt (x :: xs ++ [s, b0]) 0 [b] = (b :: xs) ++ [s, b0] := by
      simp [overwriteAt]
    rw [e, ← hl, List.drop_left]

theorem defined_short_bytes (a : Assembler) (shortCode : Nat) (nearCode : List Nat)
    (label : String) (T : Nat)
    (h1 : -128 ≤ wrapInt32 ((T : Int) - ((a.code.length : Int) + 2)))
    (h2 : wrapInt32 ((T : Int) - ((a.code.length : Int) + 2)) ≤ 127) :
    ((withLabel a label T).jump shortCode nearCode label).code =
      a.code ++ [shortCode, byte (wrapInt32 ((T : Int) - ((a.code.length : Int) + 2)))] := by
  have hl : (withLabel a label T).Labels label = some T := by simp [withLabel]
  rw [jump_defined_short (withLabel a label T) shortCode nearCode label T hl h1 h2]
  rfl

theorem decode_littleEndianInt32 (v : Int) (h1 : -2147483648 ≤ v) (h2 : v < 2147483648) :
    decodeInt32LE (littleEndianInt32 v) = v := by
  simp only [littleEndianInt32, decodeInt32LE, int32]
  split <;> omega

theorem littleEndianInt32_eq_signed (v : Int) :
    littleEndianInt32 v = littleEndianSigned 4 v := by
  simp only [littleEndianInt32, littleEndianSigned, List.range_succ, List.range_zero,
    List.nil_append, List.map_append, List.map_cons, List.map_nil, List.cons_append]
  norm_num
  refine ⟨?_, ?_, ?_, ?_⟩ <;> omega

theorem decodeInt8_byte (v : Int) (h1 : -128 ≤ v) (h2 : v ≤ 127) :
    decodeInt8 (byte v) = v := by
  unfold decodeInt8 byte
  split <;> omega

theorem length_littleEndianInt32 (v : Int) : (littleEndianInt32 v).length = 4 := rfl

theorem jump_defined_appends (a : Assembler) (shortCode : Nat) (nearCode : List Nat)
    (label : String) (T : Nat) (h : a.Labels label = some T) :
    ∃ suffix : List Nat, suffix ≠ [] ∧
      a.jump shortCode nearCode label = { a with code := a.code ++ suffix } := by
  by_cases hr : -128 ≤ wrapInt32 ((T : Int) - ((a.code.length : Int) + 2)) ∧
      wrapInt32 ((T : Int) - ((a.code.length : Int) + 2)) ≤ 127
  · exact ⟨_, List.cons_ne_nil _ _, jump_defined_short a shortCode nearCode label T h hr.1 hr.2⟩
  · refine ⟨nearCode ++
        littleEndianInt32 (wrapInt32 ((T : Int) - ((a.code.length : Int) + 2))), ?_, ?_⟩
    · intro hnil
      have hl := congrArg List.length hnil
      simp [length_littleEndianInt32] at hl
    · rw [jump_defined_near a shortCode nearCode label T h (by omega), List.append_assoc]

theorem code_of_undefined_jump (op : Operation) :
    (op.run (sessionOfLength 0) "L").code = [(specOpcodes op).1, 0] := by
  cases op <;> decide

/-! ## Displacement of a jump to a known label -/

/-- C1: the scenario of the spec, evaluated on the code. With ten bytes written and `L2`
bound to `10 + 200`, `JumpIfLess` appends `0x0F 0x8C` and the little-endian bytes of 198.
The displacement bytes are written at position 12 and are 4 wide, so the claimed value is
`210 - (12 + 4) = 194`; the emitted 198, added to the address 16 of the next instruction,
gives 214 and not the label address 210. -/
theorem jumpIfLess_near_displacement_is_198 :
    ((sessionWithLabel 10 "L2" 210).JumpIfLess "L2").code.drop 10
        = [0x0F, 0x8C, 198, 0, 0, 0]
      ∧ decodeInt32LE ((((sessionWithLabel 10 "L2" 210).JumpIfLess "L2").code.drop 10).drop 2)
        = 198
      ∧ (210 : Int) - ((10 + 2) + 4) = 194
      ∧ ((10 + 2 + 4 : Nat) : Int)
          + decodeInt32LE ((((sessionWithLabel 10 "L2" 210).JumpIfLess "L2").code.drop 10).drop 2)
        = 214 := by
  decide

/-- C2: for a label bound to `T` and a buffer of `p` bytes, let `d` be `T - (p + 2)` in
32-bit wraparound arithmetic read as signed. `jump` appends exactly two bytes, the first being
`shortCode`, if and only if `-128 ≤ d ≤ 127`; otherwise it appends `nearCode` followed by four
bytes. In particular `d = 127` and `d = -128` give the short form, `d = 128` and `d = -129`
the near form. -/
theorem jump_short_form_iff (a : Assembler) (shortCode : Nat) (nearCode : List Nat)
    (label : String) (T : Nat) (h : a.Labels label = some T) :
    ((∃ b, (a.jump shortCode nearCode label).code = a.code ++ [shortCode, b]) ↔
        (-128 ≤ wrapInt32 ((T : Int) - ((a.code.length : Int) + 2)) ∧
          wrapInt32 ((T : Int) - ((a.code.length : Int) + 2)) ≤ 127))
      ∧ (¬ (-128 ≤ wrapInt32 ((T : Int) - ((a.code.length : Int) + 2)) ∧
            wrapInt32 ((T : Int) - ((a.code.length : Int) + 2)) ≤ 127) →
          ∃ b0 b1 b2 b3,
            (a.jump shortCode nearCode label).code = a.code ++ nearCode ++ [b0, b1, b2, b3])
      ∧ (wrapInt32 ((T : Int) - ((a.code.length : Int) + 2)) = 127 ∨
            wrapInt32 ((T : Int) - ((a.code.length : Int) + 2)) = -128 →
          ∃ b, (a.jump shortCode nearCode label).code = a.code ++ [shortCode, b])
      ∧ (wrapInt32 ((T : Int) - ((a.code.length : Int) + 2)) = 128 ∨
            wrapInt32 ((T : Int) - ((a.code.length : Int) + 2)) = -129 →
          ∃ b0 b1 b2 b3,
            (a.jump shortCode nearCode label).code = a.code ++ nearCode ++ [b0, b1, b2, b3]) := by
  have near : ¬ (-128 ≤ wrapInt32 ((T : Int) - ((a.code.length : Int) + 2)) ∧
        wrapInt32 ((T : Int) - ((a.code.length : Int) + 2)) ≤ 127) →
      ∃ b0 b1 b2 b3,
        (a.jump shortCode nearCode label).code = a.code ++ nearCode ++ [b0, b1, b2, b3] := by
    intro hr
    rw [jump_defined_near a shortCode nearCode label T h (by omega)]
    exact ⟨_, _, _, _, rfl⟩
  have short : (-128 ≤ wrapInt32 ((T : Int) - ((a.code.length : Int) + 2)) ∧
        wrapInt32 ((T : Int) - ((a.code.length : Int) + 2)) ≤ 127) →
      ∃ b, (a.jump shortCode nearCode label).code = a.code ++ [shortCode, b] := by
    intro hr
    rw [jump_defined_short a shortCode nearCode label T h hr.1 hr.2]
    exact ⟨_, rfl⟩
  refine ⟨⟨?_, short⟩, near, fun hd => short (by omega), fun hd => near (by omega)⟩
  rintro ⟨b, hb⟩
  by_contra hr
  obtain ⟨b0, b1, b2, b3, hn⟩ := near hr
  rw [hn, List.append_assoc] at hb
  have hlen := congrArg List.length (List.append_cancel_left hb)
  simp at hlen

/-- C2 at a concrete input: ten bytes written, `L1` bound to 50, so `d = 38`. -/
theorem jump_short_form_iff_witness :
    ∃ b, ((sessionWithLabel 10 "L1" 50).jump 0x74 [0x0F, 0x84] "L1").code
      = (sessionWithLabel 10 "L1" 50).code ++ [0x74, b] :=
  (jump_short_form_iff (sessionWithLabel 10 "L1" 50) 0x74 [0x0F, 0x84] "L1" 50
    (by decide)).1.2 (by decide)

/-! ## Jump to an undefined label -/

/-- C3, as stated, fails where the position wraps: with `2^32 - 1` bytes written, a jump to
the undefined label `L1` registers the patch site `(0, 1)`, not `(p + 1, 1)`. -/
theorem jump_undefined_site_wraps :
    ((sessionOfLength 4294967295).jump 0x74 [0x0F, 0x84] "L1").pendingOf "L1" = [⟨0, 1⟩]
      ∧ ¬ (((sessionOfLength 4294967295).jump 0x74 [0x0F, 0x84] "L1").pendingOf "L1"
            = (sessionOfLength 4294967295).pendingOf "L1"
                ++ [⟨(sessionOfLength 4294967295).code.length + 1, 1⟩]) := by
  have hs := pending_at_wrap (sessionOfLength 4294967295) 0x74 [0x0F, 0x84] "L1" rfl
    (length_sessionOfLength 4294967295) rfl
  have hp : (sessionOfLength 4294967295).pendingOf "L1" = [] := rfl
  refine ⟨hs, ?_⟩
  rw [hs, hp, length_sessionOfLength]
  intro hc
  have h0 := congrArg (fun l => l.map jumpPointer.Position) hc
  simp at h0

/-- C3 (amended): for a label that is not in the label table, `jump` appends exactly
`[shortCode, 0x00]`, whatever `nearCode` is, and appends exactly one patch site to the end of
that label's list, keeping the sites already there in order: the site has width 1 and position
`p + 1` computed as a `uint32`, which is `p + 1` itself whenever `p + 1 < 2^32`. -/
theorem jump_undefined_effect (a : Assembler) (shortCode : Nat) (nearCode : List Nat)
    (label : String) (h : a.Labels label = none) :
    (a.jump shortCode nearCode label).code = a.code ++ [shortCode, 0]
      ∧ (a.jump shortCode nearCode label).pendingOf label
          = a.pendingOf label ++ [⟨(a.code.length + 1) % 4294967296, 1⟩]
      ∧ (a.code.length + 1 < 4294967296 →
          (a.jump shortCode nearCode label).pendingOf label
            = a.pendingOf label ++ [⟨a.code.length + 1, 1⟩]) := by
  rw [jump_undefined a shortCode nearCode label h]
  refine ⟨rfl, by simp [Assembler.pendingOf], fun hp => ?_⟩
  simp [Assembler.pendingOf, Nat.mod_eq_of_lt hp]

/-- C3 at the input of the spec: `JumpIfEqual("L1")` with `L1` undefined and ten bytes
written appends `[0x74, 0x00]` and registers `(11, 1)` under `L1`. -/
theorem jump_undefined_effect_witness :
    ((sessionOfLength 10).JumpIfEqual "L1").code = (sessionOfLength 10).code ++ [0x74, 0]
      ∧ ((sessionOfLength 10).JumpIfEqual "L1").pendingOf "L1"
          = (sessionOfLength 10).pendingOf "L1" ++ [⟨11, 1⟩] :=
  ⟨(jump_undefined_effect (sessionOfLength 10) 0x74 [0x0F, 0x84] "L1" rfl).1,
   (jump_undefined_effect (sessionOfLength 10) 0x74 [0x0F, 0x84] "L1" rfl).2.2 (by decide)⟩

/-! ## Forward and backward references -/

/-- C4, as stated, fails where the operand position wraps: with `p = 2^32 - 1` bytes
written and `T = 2^32 - 1`, so that `T - (p + 2) = -2`, the jump to the undefined `L1`
registers the site `(0, 1)`. The patch rule for that site computes `T - 1`, which does not fit
one byte, and even a truncating overwrite touches byte 0 and leaves the instruction bytes
`[0x74, 0x00]`, while the jump with `L1` already bound to `T` appends `[0x74, 0xFE]`. -/
theorem forward_patch_differs_at_wrap :
    (-128 ≤ (4294967295 : Int) - (((sessionOfLength 4294967295).code.length : Int) + 2)
        ∧ (4294967295 : Int) - (((sessionOfLength 4294967295).code.length : Int) + 2) ≤ 127)
      ∧ ((sessionOfLength 4294967295).jump 0x74 [0x0F, 0x84] "L1").pendingOf "L1" = [⟨0, 1⟩]
      ∧ patchSite ((sessionOfLength 4294967295).jump 0x74 [0x0F, 0x84] "L1").code
          4294967295 ⟨0, 1⟩ = none
      ∧ (overwriteAt ((sessionOfLength 4294967295).jump 0x74 [0x0F, 0x84] "L1").code 0
            (littleEndianSigned 1 ((4294967295 : Int) - (0 + 1)))).drop 4294967295
          = [0x74, 0x00]
      ∧ ((withLabel (sessionOfLength 4294967295) "L1" 4294967295).jump
            0x74 [0x0F, 0x84] "L1").code.drop 4294967295 = [0x74, 0xFE] := by
  have hlen := length_sessionOfLength 4294967295
  have hcode : ((sessionOfLength 4294967295).jump 0x74 [0x0F, 0x84] "L1").code
      = (sessionOfLength 4294967295).code ++ [0x74, 0] := by
    rw [jump_undefined (sessionOfLength 4294967295) 0x74 [0x0F, 0x84] "L1" rfl]
  have hz : (((4294967295 : Nat) : Int) - (((4294967295 : Nat) : Int) + 2)) = -2 := by omega
  have hw : wrapInt32 (((4294967295 : Nat) : Int) - (((4294967295 : Nat) : Int) + 2)) = -2 := by
    rw [hz]
    exact wrapInt32_of_small _ (by omega) (by omega)
  refine ⟨by rw [hlen]; omega, ?_, ?_, ?_, ?_⟩
  · exact pending_at_wrap (sessionOfLength 4294967295) 0x74 [0x0F, 0x84] "L1" rfl hlen rfl
  · rw [hcode]
    unfold patchSite
    dsimp only
    split
    · rename_i hc
      omega
    · rfl
  · rw [hcode, littleEndianSigned_one]
    have h := overwrite_first_keeps_tail (sessionOfLength 4294967295).code 0x74 0
      (byte ((4294967295 : Int) - (0 + 1))) (by rw [hlen]; omega)
    rw [hlen] at h
    exact h
  · have h := defined_short_bytes (sessionOfLength 4294967295) 0x74 [0x0F, 0x84] "L1"
      4294967295 (by rw [hlen, hw]; omega) (by rw [hlen, hw]; omega)
    rw [h, hlen, hw]
    have hd := List.drop_left (sessionOfLength 4294967295).code [0x74, byte (-2)]
    rw [hlen] at hd
    rw [hd]
    decide

/-- C4 (amended): forward and backward references agree while the operand position does not
wrap. For a buffer of `p` bytes with `p + 1 < 2^32`, a label `L` not in the label table and an
address `T` with `T - (p + 2)` in `[-128, 127]`, `jump` on `L` registers the site `(p + 1, 1)`,
and the patch rule applied to that site yields the very buffer that the same `jump` call
produces when `L` is already bound to `T`: the old bytes followed by `shortCode` and the low
byte of `T - (p + 2)`. -/
theorem forward_patch_agrees (a : Assembler) (shortCode : Nat) (nearCode : List Nat)
    (label : String) (T : Nat) (h : a.Labels label = none)
    (hp : a.code.length + 1 < 4294967296)
    (h1 : -128 ≤ (T : Int) - ((a.code.length : Int) + 2))
    (h2 : (T : Int) - ((a.code.length : Int) + 2) ≤ 127) :
    (a.jump shortCode nearCode label).pendingOf label
        = a.pendingOf label ++ [⟨a.code.length + 1, 1⟩]
      ∧ patchSite (a.jump shortCode nearCode label).code T ⟨a.code.length + 1, 1⟩
        = some (a.code ++ [shortCode, byte ((T : Int) - ((a.code.length : Int) + 2))])
      ∧ ((withLabel a label T).jump shortCode nearCode label).code
        = a.code ++ [shortCode, byte ((T : Int) - ((a.code.length : Int) + 2))] := by
  have hw : wrapInt32 ((T : Int) - ((a.code.length : Int) + 2))
      = (T : Int) - ((a.code.length : Int) + 2) := wrapInt32_of_small _ (by omega) (by omega)
  refine ⟨?_, ?_, ?_⟩
  · rw [jump_undefined a shortCode nearCode label h]
    simp [Assembler.pendingOf, Nat.mod_eq_of_lt hp]
  · rw [jump_undefined a shortCode nearCode label h]
    have hfit : -(2 ^ (8 * 1 - 1) : Int) ≤ (T : Int) - (((a.code.length + 1 : Nat) : Int) + ((1 : Nat) : Int))
        ∧ (T : Int) - (((a.code.length + 1 : Nat) : Int) + ((1 : Nat) : Int)) < 2 ^ (8 * 1 - 1)
        ∧ a.code.length + 1 + 1 ≤ (a.code ++ [shortCode, 0]).length := by
      refine ⟨?_, ?_, by simp⟩
      · norm_num; omega
      · norm_num; omega
    have hoff : (T : Int) - (((a.code.length + 1 : Nat) : Int) + ((1 : Nat) : Int))
        = (T : Int) - ((a.code.length : Int) + 2) := by push_cast; ring
    unfold patchSite
    dsimp only
    split
    · rw [littleEndianSigned_one, overwrite_operand, hoff]
    · rename_i hc
      exact absurd hfit hc
  · rw [defined_short_bytes a shortCode nearCode label T (by omega) (by omega), hw]

/-- C4 at the input of the spec: the opcode at position 10, the label later defined at 50;
the byte at position 11 becomes `50 - 12 = 38`, as `JumpIfEqual` emits for a bound label. -/
theorem forward_patch_agrees_witness :
    patchSite ((sessionOfLength 10).jump 0x74 [0x0F, 0x84] "L1").code 50 ⟨11, 1⟩
        = some ((sessionOfLength 10).code ++ [0x74, 38])
      ∧ ((withLabel (sessionOfLength 10) "L1" 50).jump 0x74 [0x0F, 0x84] "L1").code
        = (sessionOfLength 10).code ++ [0x74, 38] :=
  (forward_patch_agrees (sessionOfLength 10) 0x74 [0x0F, 0x84] "L1" 50 rfl
    (by decide) (by decide) (by decide)).2

/-! ## The near form and the short form -/

/-- C5: for a label bound to `T` and a buffer of `p` bytes, if
`offset = T - ((p + 1) + 1)` (signed 32-bit) is outside `[-128, 127]`, then `jump` appends
exactly `nearCode` followed by the four bytes of `offset`, least significant first in two's
complement; the buffer grows by `len(nearCode) + 4` bytes (5 for `Jump`, 6 for every
conditional jump), and reading the four bytes back as a little-endian signed 32-bit integer
returns `offset`. -/
theorem jump_near_form (a : Assembler) (shortCode : Nat) (nearCode : List Nat)
    (label : String) (T : Nat) (h : a.Labels label = some T)
    (hout : wrapInt32 ((T : Int) - (((a.code.length : Int) + 1) + 1)) < -128 ∨
      127 < wrapInt32 ((T : Int) - (((a.code.length : Int) + 1) + 1))) :
    (a.jump shortCode nearCode label).code
        = a.code ++ nearCode
            ++ littleEndianSigned 4 (wrapInt32 ((T : Int) - (((a.code.length : Int) + 1) + 1)))
      ∧ (a.jump shortCode nearCode label).code.length = a.code.length + (nearCode.length + 4)
      ∧ decodeInt32LE (((a.jump shortCode nearCode label).code.drop a.code.length).drop
            nearCode.length)
          = wrapInt32 ((T : Int) - (((a.code.length : Int) + 1) + 1))
      ∧ (a.Jump label).code.length = a.code.length + 5
      ∧ (∀ op : Operation, op ≠ Operation.Jump →
          (op.run a label).code.length = a.code.length + 6) := by
  have hz : (T : Int) - (((a.code.length : Int) + 1) + 1)
      = (T : Int) - ((a.code.length : Int) + 2) := by ring
  rw [hz] at hout ⊢
  have hj : ∀ (s : Nat) (n : List Nat), (a.jump s n label).code
      = a.code ++ n ++ littleEndianInt32 (wrapInt32 ((T : Int) - ((a.code.length : Int) + 2))) := by
    intro s n
    rw [jump_defined_near a s n label T h hout]
  have hr := wrapInt32_range ((T : Int) - ((a.code.length : Int) + 2))
  refine ⟨?_, ?_, ?_, ?_, ?_⟩
  · rw [hj, littleEndianInt32_eq_signed]
  · rw [hj]
    simp [length_littleEndianInt32]
  · rw [hj, List.append_assoc, List.drop_left, List.drop_left]
    exact decode_littleEndianInt32 _ hr.1 hr.2
  · unfold Assembler.Jump
    rw [hj]
    simp [length_littleEndianInt32]
  · intro op hop
    cases op <;>
      first
      | exact absurd rfl hop
      | (simp only [Operation.run, Assembler.JumpIfLess, Assembler.JumpIfLessOrEqual,
          Assembler.JumpIfGreater, Assembler.JumpIfGreaterOrEqual, Assembler.JumpIfEqual,
          Assembler.JumpIfNotEqual]
         rw [hj]
         simp [length_littleEndianInt32])

/-- C5 at a concrete input: ten bytes written, `L2` bound to 210, so `offset = 198`. -/
theorem jump_near_form_witness :
    ((sessionWithLabel 10 "L2" 210).jump 0x7C [0x0F, 0x8C] "L2").code.length
      = (sessionWithLabel 10 "L2" 210).code.length + (([0x0F, 0x8C] : List Nat).length + 4) :=
  (jump_near_form (sessionWithLabel 10 "L2" 210) 0x7C [0x0F, 0x8C] "L2" 210
    (by decide) (by decide)).2.1

/-- C6: a jump to a label bound to `T` that is emitted in short form (two bytes appended)
from a buffer of `p` bytes appends `[shortCode, b]` where `b` is the low 8 bits of
`offset = T - (p + 2)`; `b` read as a signed 8-bit integer is `offset`, and
`(p + 2) + signed(b)` is `T` modulo `2^32`: the displacement is relative to the next
instruction. -/
theorem jump_short_form_displacement (a : Assembler) (shortCode : Nat) (nearCode : List Nat)
    (label : String) (T : Nat) (h : a.Labels label = some T)
    (hs : (a.jump shortCode nearCode label).code.length = a.code.length + 2) :
    (a.jump shortCode nearCode label).code = a.code ++
        [shortCode, (wrapInt32 ((T : Int) - ((a.code.length : Int) + 2)) % 256).toNat]
      ∧ decodeInt8 ((wrapInt32 ((T : Int) - ((a.code.length : Int) + 2)) % 256).toNat)
          = wrapInt32 ((T : Int) - ((a.code.length : Int) + 2))
      ∧ (((a.code.length : Int) + 2)
            + decodeInt8 ((wrapInt32 ((T : Int) - ((a.code.length : Int) + 2)) % 256).toNat))
          % 4294967296 = (T : Int) % 4294967296 := by
  by_cases hr : -128 ≤ wrapInt32 ((T : Int) - ((a.code.length : Int) + 2)) ∧
      wrapInt32 ((T : Int) - ((a.code.length : Int) + 2)) ≤ 127
  · have hd := decodeInt8_byte _ hr.1 hr.2
    unfold byte at hd
    refine ⟨?_, hd, ?_⟩
    · rw [jump_defined_short a shortCode nearCode label T h hr.1 hr.2]
      rfl
    · rw [hd]
      unfold wrapInt32
      split <;> omega
  · exfalso
    rw [jump_defined_near a shortCode nearCode label T h (by omega)] at hs
    simp [length_littleEndianInt32] at hs

/-- C6 at a concrete input: ten bytes written, `L1` bound to 50; the byte is 38 and
`12 + 38 = 50`. -/
theorem jump_short_form_displacement_witness :
    ((sessionWithLabel 10 "L1" 50).jump 0x74 [0x0F, 0x84] "L1").code
      = (sessionWithLabel 10 "L1" 50).code ++
        [0x74, (wrapInt32 (((50 : Nat) : Int)
          - (((sessionWithLabel 10 "L1" 50).code.length : Int) + 2)) % 256).toNat] :=
  (jump_short_form_displacement (sessionWithLabel 10 "L1" 50) 0x74 [0x0F, 0x84] "L1" 50
    (by decide) (by decide)).1

/-! ## The public operations -/

/-- C7: each of the seven public operations is `jump` with the opcode pair of the spec table;
for every conditional operation the near opcode is `0x0F` followed by the short opcode plus
`0x10`; the seven short opcodes are pairwise distinct. -/
theorem public_operations_follow_table :
    (∀ (a : Assembler) (label : String),
        a.Jump label = a.jump 0xEB [0xE9] label
        ∧ a.JumpIfLess label = a.jump 0x7C [0x0F, 0x8C] label
        ∧ a.JumpIfLessOrEqual label = a.jump 0x7E [0x0F, 0x8E] label
        ∧ a.JumpIfGreater label = a.jump 0x7F [0x0F, 0x8F] label
        ∧ a.JumpIfGreaterOrEqual label = a.jump 0x7D [0x0F, 0x8D] label
        ∧ a.JumpIfEqual label = a.jump 0x74 [0x0F, 0x84] label
        ∧ a.JumpIfNotEqual label = a.jump 0x75 [0x0F, 0x85] label)
      ∧ (∀ (op : Operation) (a : Assembler) (label : String),
          op.run a label = a.jump (specOpcodes op).1 (specOpcodes op).2 label)
      ∧ (∀ op : Operation, op ≠ Operation.Jump →
          (specOpcodes op).2 = [0x0F, (specOpcodes op).1 + 0x10])
      ∧ (∀ op : Operation, op ∈ Operation.all)
      ∧ (Operation.all.map (fun op => (specOpcodes op).1)).Nodup := by
  refine ⟨fun a label => ⟨rfl, rfl, rfl, rfl, rfl, rfl, rfl⟩, ?_, ?_, ?_, by decide⟩
  · intro op a label
    cases op <;> rfl
  · intro op hop
    cases op <;> first | exact absurd rfl hop | rfl
  · intro op
    cases op <;> decide

/-- C8, as stated, fails: none of the operations of `jump.go` encodes the jump on overflow
(condition code 0, short opcode `0x70`, near opcode `0x0F 0x80`). -/
theorem no_operation_for_overflow : ¬ ∃ op : Operation, EncodesCondition op 0 := by
  rintro ⟨op, h⟩
  have hc := congrArg Assembler.code (h (sessionOfLength 0) "L")
  rw [code_of_undefined_jump] at hc
  cases op <;> exact absurd hc (by decide)

/-- C8 (amended): `jump.go` provides a jump-encoding operation for exactly six condition
codes, equal (4), not equal (5), less (12), greater-or-equal (13), less-or-equal (14) and
greater (15), each being `jump` with the short opcode `0x70 + cc` and the near opcode
`0x0F, 0x80 + cc`, in addition to the unconditional jump (`0xEB`, `0xE9`). -/
theorem provided_condition_codes :
    EncodesCondition Operation.JumpIfEqual 4
      ∧ EncodesCondition Operation.JumpIfNotEqual 5
      ∧ EncodesCondition Operation.JumpIfLess 12
      ∧ EncodesCondition Operation.JumpIfGreaterOrEqual 13
      ∧ EncodesCondition Operation.JumpIfLessOrEqual 14
      ∧ EncodesCondition Operation.JumpIfGreater 15
      ∧ (∀ (a : Assembler) (label : String),
          Operation.Jump.run a label = a.jump 0xEB [0xE9] label)
      ∧ (∀ cc : Nat, (∃ op : Operation, EncodesCondition op cc) ↔ cc ∈ [4, 5, 12, 13, 14, 15]) := by
  have e4 : EncodesCondition Operation.JumpIfEqual 4 := fun _ _ => rfl
  have e5 : EncodesCondition Operation.JumpIfNotEqual 5 := fun _ _ => rfl
  have e12 : EncodesCondition Operation.JumpIfLess 12 := fun _ _ => rfl
  have e13 : EncodesCondition Operation.JumpIfGreaterOrEqual 13 := fun _ _ => rfl
  have e14 : EncodesCondition Operation.JumpIfLessOrEqual 14 := fun _ _ => rfl
  have e15 : EncodesCondition Operation.JumpIfGreater 15 := fun _ _ => rfl
  refine ⟨e4, e5, e12, e13, e14, e15, fun _ _ => rfl, fun cc => ⟨?_, ?_⟩⟩
  · rintro ⟨op, h⟩
    have hc := congrArg Assembler.code (h (sessionOfLength 0) "L")
    rw [code_of_undefined_jump] at hc
    have hfar := congrArg (fun s => (Assembler.code s).length)
      (h (sessionWithLabel 0 "L" 1000) "L")
    have hcc : (specOpcodes op).1 = 0x70 + cc := by
      have h0 := congrArg List.head? hc
      simpa [Assembler.jump, sessionOfLength, Assembler.WriteBytes, Assembler.setPending]
        using h0
    cases op
    · have hv : cc = 123 := by simp [specOpcodes] at hcc; omega
      subst hv
      exact absurd hfar (by decide)
    all_goals
      simp only [specOpcodes] at hcc
      have hv : cc ∈ [4, 5, 12, 13, 14, 15] := by simp; omega
      exact hv
  · intro hm
    simp only [List.mem_cons, List.mem_singleton, List.not_mem_nil, or_false] at hm
    rcases hm with rfl | rfl | rfl | rfl | rfl | rfl
    · exact ⟨_, e4⟩
    · exact ⟨_, e5⟩
    · exact ⟨_, e12⟩
    · exact ⟨_, e13⟩
    · exact ⟨_, e14⟩
    · exact ⟨_, e15⟩

/-! ## Frame and invariant -/

/-- C9: the only effects of `jump` are appending bytes and possibly registering one patch
site. (1) The buffer before the call is a strict prefix of the buffer after it and the buffer
length strictly increases; (2) the label table is unchanged; (3) if the label is in the label
table the registry is unchanged; (4) otherwise the registry entries of every other label are
unchanged. -/
theorem jump_frame (a : Assembler) (shortCode : Nat) (nearCode : List Nat) (label : String) :
    (a.code <+: (a.jump shortCode nearCode label).code
        ∧ a.code ≠ (a.jump shortCode nearCode label).code
        ∧ a.code.length < (a.jump shortCode nearCode label).code.length)
      ∧ (a.jump shortCode nearCode label).Labels = a.Labels
      ∧ (a.Labels label ≠ none →
          (a.jump shortCode nearCode label).undefinedJumpLabels = a.undefinedJumpLabels)
      ∧ (a.Labels label = none → ∀ other : String, other ≠ label →
          (a.jump shortCode nearCode label).undefinedJumpLabels other
            = a.undefinedJumpLabels other) := by
  have grow : ∀ suffix : List Nat, suffix ≠ [] →
      a.code <+: a.code ++ suffix ∧ a.code ≠ a.code ++ suffix
        ∧ a.code.length < (a.code ++ suffix).length := by
    intro suffix hne
    have hpos : 0 < suffix.length := List.length_pos.mpr hne
    refine ⟨List.prefix_append _ _, ?_, by simp; exact hpos⟩
    intro he
    have hl := congrArg List.length he
    rw [List.length_append] at hl
    omega
  cases h : a.Labels label with
  | none =>
    rw [jump_undefined a shortCode nearCode label h]
    refine ⟨grow _ (List.cons_ne_nil _ _), rfl, fun hc => absurd rfl hc, ?_⟩
    intro _ other hne
    simp [hne]
  | some T =>
    obtain ⟨suffix, hne, hj⟩ := jump_defined_appends a shortCode nearCode label T h
    rw [hj]
    exact ⟨grow suffix hne, rfl, fun _ => rfl, fun hc => absurd hc (by simp)⟩

/-- C10: `jump` preserves the invariant that no label with a non-empty patch list is a key
of the label table, for every label argument and every opcode pair. -/
theorem jump_preserves_registryDisjoint (a : Assembler) (shortCode : Nat)
    (nearCode : List Nat) (label : String) (hinv : RegistryDisjoint a) :
    RegistryDisjoint (a.jump shortCode nearCode label) := by
  intro l hl
  cases h : a.Labels label with
  | none =>
    rw [jump_undefined a shortCode nearCode label h] at hl ⊢
    by_cases hlabel : l = label
    · subst hlabel
      exact h
    · apply hinv l
      simpa [Assembler.pendingOf, hlabel] using hl
  | some T =>
    obtain ⟨suffix, _, hj⟩ := jump_defined_appends a shortCode nearCode label T h
    rw [hj] at hl ⊢
    exact hinv l hl

/-- C10 at a concrete input: a session where `L1` is bound and `L2` has a pending patch,
after a further jump to the undefined `L3`. -/
theorem jump_preserves_registryDisjoint_witness :
    RegistryDisjoint (((sessionWithLabel 10 "L1" 50).jump 0x75 [0x0F, 0x85] "L2").jump
      0xEB [0xE9] "L3") :=
  jump_preserves_registryDisjoint ((sessionWithLabel 10 "L1" 50).jump 0x75 [0x0F, 0x85] "L2")
    0xEB [0xE9] "L3"
    (fun l hl => by
      by_cases h : l = "L2"
      · subst h
        decide
      · exact absurd (by simp [Assembler.jump, sessionWithLabel, Assembler.pendingOf,
          Assembler.WriteBytes, Assembler.setPending, h]) hl)

/-! ## Backward jumps and independence of the opcode pair -/

theorem offsetTo_eq_wrapInt32 (a : Assembler) (T : Nat) :
    a.offsetTo T = wrapInt32 ((T : Int) - ((a.code.length : Int) + 2)) :=
  offset_eq_wrapInt32 a.code.length T

theorem jump_defined_by_offset (a : Assembler) (shortCode : Nat) (nearCode : List Nat)
    (label : String) (T : Nat) (h : a.Labels label = some T) :
    a.jump shortCode nearCode label =
      if a.offsetTo T < -128 ∨ a.offsetTo T > 127 then
        (a.WriteBytes nearCode).binaryWriteInt32 (a.offsetTo T)
      else (a.WriteBytes [shortCode]).WriteBytes [byte (a.offsetTo T)] := by
  simp only [Assembler.jump, h, Assembler.offsetTo]

/-- C13: backward jumps without wraparound. With `p + 2 < 2^31` bytes in play and a label
bound to `T ≤ p`, the offset that `jump` computes is the exact integer `T - p - 2`, at most
`-2`; the short form is emitted if and only if `p - T ≤ 126`, the near form otherwise, both
carrying that offset; and a jump to a label bound to the current position emits exactly
`[shortCode, 0xFE]`. -/
theorem backward_jump_offset (a : Assembler) (shortCode : Nat) (nearCode : List Nat)
    (label : String) (T : Nat) (h : a.Labels label = some T)
    (hp : a.code.length + 2 < 2147483648) (hT : T ≤ a.code.length) :
    a.offsetTo T = (T : Int) - (a.code.length : Int) - 2
      ∧ a.offsetTo T ≤ -2
      ∧ ((∃ b, (a.jump shortCode nearCode label).code = a.code ++ [shortCode, b])
          ↔ a.code.length - T ≤ 126)
      ∧ (a.code.length - T ≤ 126 →
          (a.jump shortCode nearCode label).code
            = a.code ++ [shortCode, byte ((T : Int) - (a.code.length : Int) - 2)])
      ∧ (¬ a.code.length - T ≤ 126 →
          (a.jump shortCode nearCode label).code
            = a.code ++ nearCode
                ++ littleEndianInt32 ((T : Int) - (a.code.length : Int) - 2))
      ∧ (T = a.code.length →
          (a.jump shortCode nearCode label).code = a.code ++ [shortCode, 0xFE]) := by
  have hz : (T : Int) - ((a.code.length : Int) + 2) = (T : Int) - (a.code.length : Int) - 2 := by
    ring
  have hw : wrapInt32 ((T : Int) - ((a.code.length : Int) + 2))
      = (T : Int) - (a.code.length : Int) - 2 := by
    rw [wrapInt32_of_small _ (by omega) (by omega), hz]
  have hoff : a.offsetTo T = (T : Int) - (a.code.length : Int) - 2 := by
    rw [offsetTo_eq_wrapInt32, hw]
  have short : a.code.length - T ≤ 126 →
      (a.jump shortCode nearCode label).code
        = a.code ++ [shortCode, byte ((T : Int) - (a.code.length : Int) - 2)] := by
    intro hs
    rw [jump_defined_short a shortCode nearCode label T h (by rw [hw]; omega)
      (by rw [hw]; omega), hw]
  have near : ¬ a.code.length - T ≤ 126 →
      (a.jump shortCode nearCode label).code
        = a.code ++ nearCode ++ littleEndianInt32 ((T : Int) - (a.code.length : Int) - 2) := by
    intro hs
    rw [jump_defined_near a shortCode nearCode label T h (by rw [hw]; omega), hw]
  refine ⟨hoff, by rw [hoff]; omega, ⟨?_, fun hs => ⟨_, short hs⟩⟩, short, near, ?_⟩
  · rintro ⟨b, hb⟩
    by_contra hs
    rw [near hs, List.append_assoc] at hb
    have hl := congrArg List.length (List.append_cancel_left hb)
    simp [length_littleEndianInt32] at hl
  · intro hTp
    rw [short (by omega), hTp]
    have hb : ((a.code.length : Int) - (a.code.length : Int) - 2) = -2 := by ring
    rw [hb]
    rfl

/-- C13 at a concrete input: ten bytes written and `L1` bound to the current position 10;
the jump back to itself is `[0xEB, 0xFE]`. -/
theorem backward_jump_offset_witness :
    ((sessionWithLabel 10 "L1" 10).jump 0xEB [0xE9] "L1").code
      = (sessionWithLabel 10 "L1" 10).code ++ [0xEB, 0xFE] :=
  (backward_jump_offset (sessionWithLabel 10 "L1" 10) 0xEB [0xE9] "L1" 10
    (by decide) (by decide) (by decide)).2.2.2.2.2 (by decide)

/-- C14: the displacement does not depend on the opcode pair. For a label bound to `T` and
any two opcode pairs, the two `jump` calls run from the same state choose the same form:
either both append their short opcode and the same displacement byte, or both append their
near opcode, of whatever length, and the same four bytes, the little-endian 32-bit encoding
of `T - (p + 2)`. -/
theorem displacement_independent_of_opcodes (a : Assembler) (s1 s2 : Nat)
    (n1 n2 : List Nat) (label : String) (T : Nat) (h : a.Labels label = some T) :
    ((-128 ≤ wrapInt32 ((T : Int) - ((a.code.length : Int) + 2))
          ∧ wrapInt32 ((T : Int) - ((a.code.length : Int) + 2)) ≤ 127)
        ∧ ∃ b, (a.jump s1 n1 label).code = a.code ++ [s1] ++ [b]
          ∧ (a.jump s2 n2 label).code = a.code ++ [s2] ++ [b])
      ∨ (¬ (-128 ≤ wrapInt32 ((T : Int) - ((a.code.length : Int) + 2))
            ∧ wrapInt32 ((T : Int) - ((a.code.length : Int) + 2)) ≤ 127)
        ∧ (a.jump s1 n1 label).code = a.code ++ n1
            ++ littleEndianSigned 4 (wrapInt32 ((T : Int) - ((a.code.length : Int) + 2)))
        ∧ (a.jump s2 n2 label).code = a.code ++ n2
            ++ littleEndianSigned 4 (wrapInt32 ((T : Int) - ((a.code.length : Int) + 2)))) := by
  by_cases hr : -128 ≤ wrapInt32 ((T : Int) - ((a.code.length : Int) + 2)) ∧
      wrapInt32 ((T : Int) - ((a.code.length : Int) + 2)) ≤ 127
  · refine Or.inl ⟨hr, byte (wrapInt32 ((T : Int) - ((a.code.length : Int) + 2))), ?_, ?_⟩
    · rw [jump_defined_short a s1 n1 label T h hr.1 hr.2]
      simp
    · rw [jump_defined_short a s2 n2 label T h hr.1 hr.2]
      simp
  · refine Or.inr ⟨hr, ?_, ?_⟩
    · rw [jump_defined_near a s1 n1 label T h (by omega), littleEndianInt32_eq_signed]
    · rw [jump_defined_near a s2 n2 label T h (by omega), littleEndianInt32_eq_signed]

/-- C14 at a concrete input: ten bytes written and `L2` bound to 210; `Jump` (one near
opcode byte) and `JumpIfLess` (two) carry the same four displacement bytes. -/
theorem displacement_independent_of_opcodes_witness :
    ((sessionWithLabel 10 "L2" 210).jump 0xEB [0xE9] "L2").code.drop 11
      = ((sessionWithLabel 10 "L2" 210).jump 0x7C [0x0F, 0x8C] "L2").code.drop 12 := by
  rcases displacement_independent_of_opcodes (sessionWithLabel 10 "L2" 210) 0xEB 0x7C
    [0xE9] [0x0F, 0x8C] "L2" 210 (by decide) with ⟨hr, _⟩ | ⟨_, h1, h2⟩
  · exact absurd hr (by decide)
  · rw [h1, h2]
    decide

/-! ## Registered patch sites -/

theorem run_eq_jump (op : Operation) (a : Assembler) (label : String) :
    op.run a label = a.jump (specOpcodes op).1 (specOpcodes op).2 label := by
  cases op <;> rfl

theorem run_undefined (op : Operation) (a : Assembler) (label : String)
    (h : a.Labels label = none) :
    op.run a label =
      { code := a.code ++ [(specOpcodes op).1, 0]
        Labels := a.Labels
        undefinedJumpLabels := fun l =>
          if l = label then
            some (a.pendingOf label ++ [⟨(a.code.length + 1) % 4294967296, 1⟩])
          else a.undefinedJumpLabels l } := by
  rw [run_eq_jump, jump_undefined a _ _ label h]

theorem pending_after_undefined (a : Assembler) (shortCode : Nat) (nearCode : List Nat)
    (label : String) (h : a.Labels label = none) (l : String) :
    (a.jump shortCode nearCode label).pendingOf l =
      if l = label then a.pendingOf label ++ [⟨(a.code.length + 1) % 4294967296, 1⟩]
      else a.pendingOf l := by
  rw [jump_undefined a shortCode nearCode label h]
  by_cases hl : l = label <;> simp [Assembler.pendingOf, hl]

/-- C11: `jump` preserves the invariant that every registered patch site has width 1, a
position of at least 1 and lies within the written bytes, and right after the jump that
registers a site `(position, 1)` the byte at `position - 1` is the short opcode passed to that
jump, the byte at `position` is `0x00` and `position + 1` is the buffer length; all this
assuming the buffer length stays below `2^32 - 2`. -/
theorem jump_preserves_sitesWritten (a : Assembler) (shortCode : Nat) (nearCode : List Nat)
    (label : String) (hlen : a.code.length < 4294967294) (hinv : SitesWritten a) :
    SitesWritten (a.jump shortCode nearCode label)
      ∧ (a.Labels label = none →
          ∃ s : jumpPointer,
            (a.jump shortCode nearCode label).pendingOf label = a.pendingOf label ++ [s]
              ∧ s = ⟨a.code.length + 1, 1⟩
              ∧ (a.jump shortCode nearCode label).code[s.Position - 1]? = some shortCode
              ∧ (a.jump shortCode nearCode label).code[s.Position]? = some 0
              ∧ s.Position + s.Size = (a.jump shortCode nearCode label).code.length) := by
  have hmod : (a.code.length + 1) % 4294967296 = a.code.length + 1 :=
    Nat.mod_eq_of_lt (by omega)
  constructor
  · intro l s hs
    cases h : a.Labels label with
    | none =>
      rw [pending_after_undefined a shortCode nearCode label h l, hmod] at hs
      have hcode : (a.jump shortCode nearCode label).code.length = a.code.length + 2 := by
        rw [jump_undefined a shortCode nearCode label h]
        simp
      rw [hcode]
      by_cases hl : l = label
      · rw [if_pos hl, List.mem_append, List.mem_singleton] at hs
        rcases hs with hs | hs
        · have := hinv label s hs
          omega
        · subst hs
          exact ⟨rfl, by simp, by simp⟩
      · rw [if_neg hl] at hs
        have := hinv l s hs
        omega
    | some T =>
      obtain ⟨suffix, _, hj⟩ := jump_defined_appends a shortCode nearCode label T h
      rw [hj] at hs ⊢
      have := hinv l s hs
      simp only [List.length_append]
      omega
  · intro h
    refine ⟨⟨a.code.length + 1, 1⟩, ?_, rfl, ?_, ?_, ?_⟩
    · rw [pending_after_undefined a shortCode nearCode label h label, if_pos rfl, hmod]
    · rw [jump_undefined a shortCode nearCode label h]
      show (a.code ++ [shortCode, 0])[a.code.length + 1 - 1]? = some shortCode
      rw [List.getElem?_append_right (by omega)]
      have e : a.code.length + 1 - 1 - a.code.length = 0 := by omega
      rw [e]
      rfl
    · rw [jump_undefined a shortCode nearCode label h]
      show (a.code ++ [shortCode, 0])[a.code.length + 1]? = some 0
      rw [List.getElem?_append_right (by omega)]
      have e : a.code.length + 1 - a.code.length = 1 := by omega
      rw [e]
      rfl
    · rw [jump_undefined a shortCode nearCode label h]
      simp

/-- C11 at a concrete input: ten bytes written, no pending patch, `JumpIfEqual` to the
undefined `L1`. -/
theorem jump_preserves_sitesWritten_witness :
    SitesWritten ((sessionOfLength 10).jump 0x74 [0x0F, 0x84] "L1") :=
  (jump_preserves_sitesWritten (sessionOfLength 10) 0x74 [0x0F, 0x84] "L1" (by decide)
    (fun l s hs => absurd hs (by simp [Assembler.pendingOf, sessionOfLength]))).1

/-! ## Sequences of jumps to undefined labels -/

theorem runJumps_cons (a : Assembler) (step : Operation × String)
    (rest : List (Operation × String)) :
    runJumps a (step :: rest) = runJumps (step.1.run a step.2) rest := rfl

theorem runJumps_append_one (a : Assembler) (steps : List (Operation × String))
    (step : Operation × String) :
    runJumps a (steps ++ [step]) = step.1.run (runJumps a steps) step.2 := by
  simp [runJumps, List.foldl_append]

theorem runJumps_length_labels (steps : List (Operation × String)) :
    ∀ a : Assembler, (∀ st ∈ steps, a.Labels st.2 = none) →
      (runJumps a steps).code.length = a.code.length + 2 * steps.length
        ∧ (runJumps a steps).Labels = a.Labels := by
  induction steps with
  | nil => intro a _; exact ⟨rfl, rfl⟩
  | cons st rest ih =>
    intro a hund
    have h0 : a.Labels st.2 = none := hund st (List.mem_cons_self _ _)
    have hrun := run_undefined st.1 a st.2 h0
    have hl : (st.1.run a st.2).Labels = a.Labels := by rw [hrun]
    have hc : (st.1.run a st.2).code.length = a.code.length + 2 := by rw [hrun]; simp
    have := ih (st.1.run a st.2) (fun x hx => by
      rw [hl]; exact hund x (List.mem_cons_of_mem _ hx))
    rw [runJumps_cons, this.1, this.2, hl, hc, List.length_cons]
    exact ⟨by omega, rfl⟩

theorem runJumps_pending (steps : List (Operation × String)) :
    ∀ a : Assembler, (∀ st ∈ steps, a.Labels st.2 = none) →
      a.code.length + 2 * steps.length ≤ 4294967296 →
      ∀ l : String,
        (runJumps a steps).pendingOf l = a.pendingOf l ++ sitesFrom a.code.length steps l := by
  induction steps with
  | nil => intro a _ _ l; simp [runJumps, sitesFrom]
  | cons st rest ih =>
    intro a hund hfit l
    rw [List.length_cons] at hfit
    have h0 : a.Labels st.2 = none := hund st (List.mem_cons_self _ _)
    have hrun := run_undefined st.1 a st.2 h0
    have hl : (st.1.run a st.2).Labels = a.Labels := by rw [hrun]
    have hc : (st.1.run a st.2).code.length = a.code.length + 2 := by rw [hrun]; simp
    have hmod : (a.code.length + 1) % 4294967296 = a.code.length + 1 :=
      Nat.mod_eq_of_lt (by omega)
    have hp : (st.1.run a st.2).pendingOf l =
        a.pendingOf l ++ (if st.2 = l then [⟨a.code.length + 1, 1⟩] else []) := by
      rw [run_eq_jump, pending_after_undefined a _ _ st.2 h0 l, hmod]
      by_cases hlab : l = st.2
      · subst hlab
        simp
      · have hne : ¬ st.2 = l := fun e => hlab e.symm
        simp [hlab, hne]
    have := ih (st.1.run a st.2) (fun x hx => by
      rw [hl]; exact hund x (List.mem_cons_of_mem _ hx)) (by rw [hc]; omega) l
    rw [runJumps_cons, this, hp, hc, List.append_assoc]
    rfl

theorem sitesFrom_lower (steps : List (Operation × String)) (l : String) :
    ∀ (n : Nat) (s : jumpPointer), s ∈ sitesFrom n steps l → n + 1 ≤ s.Position := by
  induction steps with
  | nil => intro n s hs; simp [sitesFrom] at hs
  | cons st rest ih =>
    intro n s hs
    unfold sitesFrom at hs
    rw [List.mem_append] at hs
    rcases hs with hs | hs
    · by_cases hlab : st.2 = l
      · rw [if_pos hlab, List.mem_singleton] at hs
        subst hs
        exact Nat.le_refl _
      · rw [if_neg hlab] at hs
        simp at hs
    · have := ih (n + 2) s hs
      omega

theorem sitesFrom_increasing (steps : List (Operation × String)) (l : String) :
    ∀ n : Nat, ((sitesFrom n steps l).map jumpPointer.Position).Pairwise (· < ·) := by
  induction steps with
  | nil => intro n; simp [sitesFrom]
  | cons st rest ih =>
    intro n
    unfold sitesFrom
    by_cases hlab : st.2 = l
    · rw [if_pos hlab, List.singleton_append, List.map_cons, List.pairwise_cons]
      refine ⟨?_, ih (n + 2)⟩
      intro x hx
      obtain ⟨s, hs, rfl⟩ := List.mem_map.mp hx
      have := sitesFrom_lower rest l (n + 2) s hs
      show n + 1 < s.Position
      omega
    · rw [if_neg hlab, List.nil_append]
      exact ih (n + 2)

theorem two_jumps_across_wrap (a : Assembler) (l : String) (op1 op2 : Operation)
    (h : a.Labels l = none) (hl : a.code.length = 4294967293) (hp : a.pendingOf l = []) :
    (runJumps a [(op1, l), (op2, l)]).pendingOf l = [⟨4294967294, 1⟩, ⟨0, 1⟩] := by
  have h1 := run_undefined op1 a l h
  have hlab : (op1.run a l).Labels l = none := by rw [h1]; exact h
  have hc : (op1.run a l).code.length = 4294967295 := by rw [h1]; simp [hl]
  have hp1 : (op1.run a l).pendingOf l = [⟨4294967294, 1⟩] := by
    rw [run_eq_jump, pending_after_undefined a _ _ l h l, if_pos rfl, hp, hl]
    rfl
  show (op2.run (op1.run a l) l).pendingOf l = _
  rw [run_eq_jump op2, pending_after_undefined _ _ _ l hlab l, if_pos rfl, hp1, hc]
  rfl

/-- C12, as stated, fails where a position wraps: from a buffer of `2^32 - 3` bytes,
`JumpIfEqual` and then `Jump` to the undefined `L1` register `(2^32 - 2, 1)` and then
`(0, 1)`: the second site is not `(n + 2 * 1 + 1, 1)` and the positions do not increase. -/
theorem sites_out_of_order_at_wrap :
    (sessionOfLength 4294967293).Labels "L1" = none
      ∧ (runJumps (sessionOfLength 4294967293)
            [(Operation.JumpIfEqual, "L1"), (Operation.Jump, "L1")]).pendingOf "L1"
          = [⟨4294967294, 1⟩, ⟨0, 1⟩]
      ∧ (runJumps (sessionOfLength 4294967293)
            [(Operation.JumpIfEqual, "L1"), (Operation.Jump, "L1")]).pendingOf "L1"
          ≠ (sessionOfLength 4294967293).pendingOf "L1" ++
              [⟨(sessionOfLength 4294967293).code.length + 2 * 0 + 1, 1⟩,
               ⟨(sessionOfLength 4294967293).code.length + 2 * 1 + 1, 1⟩]
      ∧ ¬ (((runJumps (sessionOfLength 4294967293)
            [(Operation.JumpIfEqual, "L1"), (Operation.Jump, "L1")]).pendingOf "L1").map
              jumpPointer.Position).Pairwise (· < ·) := by
  have hs := two_jumps_across_wrap (sessionOfLength 4294967293) "L1" Operation.JumpIfEqual
    Operation.Jump rfl (length_sessionOfLength 4294967293) rfl
  have hp : (sessionOfLength 4294967293).pendingOf "L1" = [] := rfl
  refine ⟨rfl, hs, ?_, ?_⟩
  · rw [hs, hp, length_sessionOfLength]
    intro hc
    have h0 := congrArg (fun l => l.map jumpPointer.Position) hc
    simp at h0
  · rw [hs]
    simp

/-- C12 (amended): patch sites are recorded in emission order while no position wraps.
From a buffer of `n` bytes, `k` public jump operations on labels that are not in the label
table, with `n + 2 * k ≤ 2^32`, grow the buffer by exactly `2 * k` bytes; the jump number `i`
appends the site `(n + 2 * i + 1, 1)` to the list of its label; and at the end the list of
every label is the list it held before followed by the sites of the jumps that used it, in
the order of the jumps and with strictly increasing positions. -/
theorem jumps_record_sites_in_order (a : Assembler) (steps : List (Operation × String))
    (hund : ∀ st ∈ steps, a.Labels st.2 = none)
    (hfit : a.code.length + 2 * steps.length ≤ 4294967296) :
    (runJumps a steps).code.length = a.code.length + 2 * steps.length
      ∧ (∀ (i : Nat) (hi : i < steps.length),
          (runJumps a (steps.take (i + 1))).pendingOf (steps.get ⟨i, hi⟩).2
            = (runJumps a (steps.take i)).pendingOf (steps.get ⟨i, hi⟩).2
                ++ [⟨a.code.length + 2 * i + 1, 1⟩])
      ∧ (∀ l : String,
          (runJumps a steps).pendingOf l = a.pendingOf l ++ sitesFrom a.code.length steps l
            ∧ ((sitesFrom a.code.length steps l).map jumpPointer.Position).Pairwise
                (· < ·)) := by
  refine ⟨(runJumps_length_labels steps a hund).1, ?_, fun l =>
    ⟨runJumps_pending steps a hund hfit l, sitesFrom_increasing steps l a.code.length⟩⟩
  intro i hi
  have htake : steps.take (i + 1) = steps.take i ++ [steps.get ⟨i, hi⟩] := by
    rw [List.take_succ, List.getElem?_eq_getElem hi]
    rfl
  have hpre := runJumps_length_labels (steps.take i) a
    (fun st hst => hund st (List.mem_of_mem_take hst))
  have hlen : (runJumps a (steps.take i)).code.length = a.code.length + 2 * i := by
    rw [hpre.1, List.length_take, Nat.min_eq_left (Nat.le_of_lt hi)]
  have hlab : (runJumps a (steps.take i)).Labels (steps.get ⟨i, hi⟩).2 = none := by
    rw [hpre.2]
    exact hund _ (List.get_mem steps i hi)
  rw [htake, runJumps_append_one, run_eq_jump,
    pending_after_undefined _ _ _ _ hlab, if_pos rfl, hlen,
    Nat.mod_eq_of_lt (by omega)]

/-- C12 at a concrete input: from ten bytes, `JumpIfEqual("L1")`, `Jump("L2")` and
`JumpIfLess("L1")` leave 16 bytes and the sites `(11, 1)` and `(15, 1)` under `L1`. -/
theorem jumps_record_sites_in_order_witness :
    (runJumps (sessionOfLength 10) [(Operation.JumpIfEqual, "L1"), (Operation.Jump, "L2"),
        (Operation.JumpIfLess, "L1")]).code.length = 10 + 2 * 3
      ∧ (runJumps (sessionOfLength 10) [(Operation.JumpIfEqual, "L1"), (Operation.Jump, "L2"),
          (Operation.JumpIfLess, "L1")]).pendingOf "L1" = [⟨11, 1⟩, ⟨15, 1⟩] := by
  have h := jumps_record_sites_in_order (sessionOfLength 10)
    [(Operation.JumpIfEqual, "L1"), (Operation.Jump, "L2"), (Operation.JumpIfLess, "L1")]
    (fun _ _ => rfl) (by decide)
  refine ⟨by rw [h.1]; decide, ?_⟩
  rw [(h.2.2 "L1").1]
  decide

end Asm
